import Mathlib

/-!
# Verification of the eqprop analog-network simulator

Shallow embedding of the core of the `eqprop` repository:

* `diode.py` — antiparallel-diode current law (over `ℝ`, since it uses `sinh`);
* `network.py` — weight quantization (`WeightParams`), network topology
  (`Network`), nudge currents, and the resistive linear pre-solve
  (`resistive_initial_guess`);
* `training.py` — the EqProp gradient (`eqprop_gradient`) and the training
  loop (`train`).

All rational arithmetic of the Python code is embedded over `ℚ`.  The
nonlinear root-finder `scipy.optimize.root` cannot be embedded; everything
built on top of it is parameterised by an abstract solver function standing
for `solve_network`, so the theorems hold for every behaviour of that solver.
-/

/-! ## Python `round` (banker's rounding, round-half-to-even) -/

/-- Python's builtin `round` on an exact value: nearest integer, ties to the
even neighbour. -/
def pyRound (x : ℚ) : ℤ :=
  if x - ⌊x⌋ < 1/2 then ⌊x⌋
  else if 1/2 < x - ⌊x⌋ then ⌊x⌋ + 1
  else if ⌊x⌋ % 2 = 0 then ⌊x⌋ else ⌊x⌋ + 1

/-- `np.clip` on integers: `min (max x lo) hi`. -/
def clipInt (x lo hi : ℤ) : ℤ := min (max x lo) hi

/-- `np.clip` on rationals: `min (max x lo) hi`. -/
def clipQ (x lo hi : ℚ) : ℚ := min (max x lo) hi

/-! ## `WeightParams` (network.py lines 11–45) -/

/-- Physical constraints of the weight resistors (MCP4251-104 digital pots). -/
structure WeightParams where
  R_series : ℚ
  R_min : ℚ
  R_max : ℚ
  N_taps : ℕ
  R_pot_full : ℚ
deriving DecidableEq

/-- Standard MCP4251-104 parameters (the dataclass defaults). -/
def MCP4251 : WeightParams :=
  { R_series := 1200, R_min := 1590, R_max := 101200,
    N_taps := 256, R_pot_full := 100000 }

def WeightParams.G_min (wp : WeightParams) : ℚ := 1 / wp.R_max

def WeightParams.G_max (wp : WeightParams) : ℚ := 1 / wp.R_min

/-- Map continuous resistance to nearest MCP4251 tap (1..N_taps). -/
def WeightParams.resistance_to_tap (wp : WeightParams) (r : ℚ) : ℤ :=
  let r_pot := r - wp.R_series
  let tap := pyRound ((wp.R_pot_full - r_pot) * wp.N_taps / wp.R_pot_full)
  clipInt tap 1 wp.N_taps

/-- Map MCP4251 tap position to exact resistance. -/
def WeightParams.tap_to_resistance (wp : WeightParams) (tap : ℤ) : ℚ :=
  let r_pot := wp.R_pot_full * (1 - (tap : ℚ) / wp.N_taps)
  r_pot + wp.R_series

/-- Round-trip weights through hardware tap positions.
Returns `(quantized_weights, taps)`. -/
def WeightParams.quantize_weights (wp : WeightParams) (weights : List ℚ) :
    List ℚ × List ℤ :=
  let taps := weights.map wp.resistance_to_tap
  (taps.map wp.tap_to_resistance, taps)

/-! ### Basic facts about `pyRound` and clipping -/

lemma pyRound_intCast (t : ℤ) : pyRound (t : ℚ) = t := by
  unfold pyRound
  simp [Int.floor_intCast]

lemma clipInt_eq_self {x lo hi : ℤ} (h1 : lo ≤ x) (h2 : x ≤ hi) :
    clipInt x lo hi = x := by
  unfold clipInt
  omega

lemma clipInt_le {x lo hi : ℤ} (h : lo ≤ hi) :
    lo ≤ clipInt x lo hi ∧ clipInt x lo hi ≤ hi := by
  unfold clipInt
  omega

lemma pyRound_le (x : ℚ) : (pyRound x : ℚ) ≤ x + 1/2 := by
  unfold pyRound
  have hf := Int.floor_le x
  have hc := Int.sub_one_lt_floor x
  split
  · linarith
  · split
    · push_cast
      linarith
    · split
      · linarith
      · push_cast
        linarith

lemma le_pyRound (x : ℚ) : x - 1/2 ≤ (pyRound x : ℚ) := by
  unfold pyRound
  have hf := Int.floor_le x
  have hc := Int.lt_floor_add_one x
  split
  · linarith
  · split
    · push_cast
      linarith
    · split
      · linarith
      · push_cast
        linarith

lemma abs_sub_pyRound_le (x : ℚ) : |x - (pyRound x : ℚ)| ≤ 1/2 := by
  rw [abs_sub_le_iff]
  constructor
  · have := le_pyRound x
    linarith
  · have := pyRound_le x
    linarith

/-! ### Round-trip: the nearest tap of a tap's resistance is itself -/

lemma tap_roundtrip (wp : WeightParams) (hN : 0 < wp.N_taps)
    (hR : wp.R_pot_full ≠ 0) {t : ℤ} (h1 : 1 ≤ t) (h2 : t ≤ (wp.N_taps : ℤ)) :
    wp.resistance_to_tap (wp.tap_to_resistance t) = t := by
  have hNQ : (wp.N_taps : ℚ) ≠ 0 := Nat.cast_ne_zero.mpr hN.ne'
  simp only [WeightParams.resistance_to_tap, WeightParams.tap_to_resistance]
  have harg :
      (wp.R_pot_full - (wp.R_pot_full * (1 - (t : ℚ) / wp.N_taps) + wp.R_series -
        wp.R_series)) * wp.N_taps / wp.R_pot_full = (t : ℚ) := by
    field_simp
    ring
  rw [harg, pyRound_intCast, clipInt_eq_self h1 h2]

lemma resistance_to_tap_bounds (wp : WeightParams) (hN : 0 < wp.N_taps) (r : ℚ) :
    1 ≤ wp.resistance_to_tap r ∧ wp.resistance_to_tap r ≤ (wp.N_taps : ℤ) := by
  simp only [WeightParams.resistance_to_tap]
  exact clipInt_le (by exact_mod_cast hN)

/-- C3: for every weight vector, applying `quantize_weights` twice yields
exactly the same quantized resistances and the same tap list as applying it
once; elementwise,
`resistance_to_tap (tap_to_resistance (resistance_to_tap r)) = resistance_to_tap r`,
so the round-trip `tap_to_resistance ∘ resistance_to_tap` is idempotent with
exact equality. -/
theorem quantize_weights_idempotent (wp : WeightParams) (hN : 0 < wp.N_taps)
    (hR : wp.R_pot_full ≠ 0) (weights : List ℚ) :
    wp.quantize_weights (wp.quantize_weights weights).1 =
      wp.quantize_weights weights ∧
    ∀ r : ℚ, wp.resistance_to_tap (wp.tap_to_resistance (wp.resistance_to_tap r)) =
      wp.resistance_to_tap r := by
  have key : ∀ r : ℚ, wp.resistance_to_tap (wp.tap_to_resistance
      (wp.resistance_to_tap r)) = wp.resistance_to_tap r := by
    intro r
    obtain ⟨hb1, hb2⟩ := resistance_to_tap_bounds wp hN r
    exact tap_roundtrip wp hN hR hb1 hb2
  refine ⟨?_, key⟩
  simp only [WeightParams.quantize_weights, List.map_map]
  refine Prod.ext ?_ ?_
  · exact List.map_congr_left fun a _ => congrArg wp.tap_to_resistance (key a)
  · exact List.map_congr_left fun a _ => key a

/-- Witness for C3 at the MCP4251 hardware parameters and a concrete
weight vector. -/
theorem quantize_weights_idempotent_witness :
    0 < MCP4251.N_taps ∧ MCP4251.R_pot_full ≠ 0 ∧
    (MCP4251.quantize_weights (MCP4251.quantize_weights [2000, 50000]).1 =
        MCP4251.quantize_weights [2000, 50000] ∧
      ∀ r : ℚ, MCP4251.resistance_to_tap (MCP4251.tap_to_resistance
          (MCP4251.resistance_to_tap r)) = MCP4251.resistance_to_tap r) :=
  ⟨by decide, by norm_num [MCP4251],
    quantize_weights_idempotent MCP4251 (by decide) (by norm_num [MCP4251])
      [2000, 50000]⟩

/-- C4 counterexample: the weight `101100` is strictly inside
`(R_min, R_max) = (1590, 101200)` of the MCP4251 parameters, yet its
quantization error is `290.625`, which exceeds half a tap step
`R_pot_full / N_taps / 2 = 195.3125` (the rounded-to-tap-0 value is clamped
to tap 1). -/
theorem quantize_error_bound_counterexample :
    MCP4251.R_min < 101100 ∧ (101100 : ℚ) < MCP4251.R_max ∧
    ¬ (|(101100 : ℚ) -
          MCP4251.tap_to_resistance (MCP4251.resistance_to_tap 101100)| ≤
        MCP4251.R_pot_full / MCP4251.N_taps / 2) := by
  have hpy : pyRound (32/125 : ℚ) = 0 := by
    unfold pyRound
    norm_num
  have htap : MCP4251.resistance_to_tap 101100 = 1 := by
    simp only [WeightParams.resistance_to_tap, MCP4251]
    norm_num
    rw [hpy]
    decide
  refine ⟨by norm_num [MCP4251], by norm_num [MCP4251], ?_⟩
  rw [htap]
  norm_num [MCP4251, WeightParams.tap_to_resistance]
  rw [abs_of_pos (by norm_num : (0:ℚ) < 2325/8)]
  norm_num

/-- C4 (amended): for weights strictly inside
`(R_min, R_max - R_pot_full/N_taps/2)` the quantization error is at most half
a tap step `R_pot_full / N_taps / 2`.  (On the excluded sliver
`[R_max - R_pot_full/N_taps/2, R_max)` the rounded tap is clamped up to 1 and
the error can reach a full tap step, as the counterexample shows.) -/
theorem quantize_error_bound_interior (wp : WeightParams) (hN : 0 < wp.N_taps)
    (hRp : 0 < wp.R_pot_full)
    (hlo : wp.R_series - wp.R_pot_full / (2 * wp.N_taps) ≤ wp.R_min)
    (hhi : wp.R_max ≤ wp.R_series + wp.R_pot_full)
    (r : ℚ) (h1 : wp.R_min < r)
    (h2 : r < wp.R_max - wp.R_pot_full / wp.N_taps / 2) :
    |r - wp.tap_to_resistance (wp.resistance_to_tap r)| ≤
      wp.R_pot_full / wp.N_taps / 2 := by
  have hNpos : (0:ℚ) < wp.N_taps := by exact_mod_cast hN
  have hNne : (wp.N_taps : ℚ) ≠ 0 := hNpos.ne'
  have hPne : wp.R_pot_full ≠ 0 := hRp.ne'
  set v : ℚ := (wp.R_pot_full - (r - wp.R_series)) * wp.N_taps / wp.R_pot_full
    with hv
  have hv_lb : 1/2 < v := by
    rw [hv, lt_div_iff hRp]
    have h2' : r < wp.R_series + wp.R_pot_full - wp.R_pot_full / wp.N_taps / 2 := by
      linarith
    have key := mul_lt_mul_of_pos_right
      (show wp.R_pot_full / wp.N_taps / 2 < wp.R_pot_full - (r - wp.R_series) by
        linarith) hNpos
    have hq : wp.R_pot_full / wp.N_taps / 2 * wp.N_taps = wp.R_pot_full / 2 := by
      field_simp
      ring
    rw [hq] at key
    linarith
  have hv_ub : v < wp.N_taps + 1/2 := by
    rw [hv, div_lt_iff hRp]
    have h1' : wp.R_series - wp.R_pot_full / (2 * wp.N_taps) < r :=
      lt_of_le_of_lt hlo h1
    have key := mul_lt_mul_of_pos_right
      (show wp.R_pot_full - (r - wp.R_series) <
          wp.R_pot_full + wp.R_pot_full / (2 * wp.N_taps) by linarith) hNpos
    have hq : (wp.R_pot_full + wp.R_pot_full / (2 * wp.N_taps)) * wp.N_taps =
        wp.R_pot_full * wp.N_taps + wp.R_pot_full / 2 := by
      field_simp
      ring
    rw [hq] at key
    linarith
  have ht_lb : 1 ≤ pyRound v := by
    have h := le_pyRound v
    have h0 : (0:ℚ) < (pyRound v : ℚ) := by linarith
    have h0' : (0:ℤ) < pyRound v := by exact_mod_cast h0
    omega
  have ht_ub : pyRound v ≤ (wp.N_taps : ℤ) := by
    have h := pyRound_le v
    have hQ : (pyRound v : ℚ) < (wp.N_taps : ℚ) + 1 := by linarith
    have h' : pyRound v < (wp.N_taps : ℤ) + 1 := by exact_mod_cast hQ
    omega
  have htap : wp.resistance_to_tap r = pyRound v := by
    simp only [WeightParams.resistance_to_tap]
    rw [← hv]
    exact clipInt_eq_self ht_lb ht_ub
  rw [htap]
  have hvmul : v * (wp.R_pot_full / wp.N_taps) =
      wp.R_pot_full - (r - wp.R_series) := by
    rw [hv]
    field_simp
  have hrq : r - wp.tap_to_resistance (pyRound v) =
      ((pyRound v : ℚ) - v) * (wp.R_pot_full / wp.N_taps) := by
    simp only [WeightParams.tap_to_resistance]
    rw [sub_mul, hvmul]
    field_simp
    ring
  have hstep : (0:ℚ) < wp.R_pot_full / wp.N_taps := div_pos hRp hNpos
  rw [hrq, abs_mul, abs_of_pos hstep, abs_sub_comm]
  have hb := abs_sub_pyRound_le v
  have := mul_le_mul_of_nonneg_right hb hstep.le
  linarith

/-- Witness for the amended C4 at the MCP4251 parameters and `r = 50000`. -/
theorem quantize_error_bound_interior_witness :
    0 < MCP4251.N_taps ∧ (0:ℚ) < MCP4251.R_pot_full ∧
    MCP4251.R_series - MCP4251.R_pot_full / (2 * MCP4251.N_taps) ≤
      MCP4251.R_min ∧
    MCP4251.R_max ≤ MCP4251.R_series + MCP4251.R_pot_full ∧
    MCP4251.R_min < 50000 ∧
    (50000:ℚ) < MCP4251.R_max - MCP4251.R_pot_full / MCP4251.N_taps / 2 ∧
    |(50000:ℚ) - MCP4251.tap_to_resistance (MCP4251.resistance_to_tap 50000)| ≤
      MCP4251.R_pot_full / MCP4251.N_taps / 2 :=
  ⟨by decide, by norm_num [MCP4251], by norm_num [MCP4251],
    by norm_num [MCP4251], by norm_num [MCP4251], by norm_num [MCP4251],
    quantize_error_bound_interior MCP4251 (by decide) (by norm_num [MCP4251])
      (by norm_num [MCP4251]) (by norm_num [MCP4251]) 50000
      (by norm_num [MCP4251]) (by norm_num [MCP4251])⟩

/-- C9: for every resistance in the hardware interval `[R_min, R_max]` of the
MCP4251 parameters, the nearest tap lies in `1..N_taps-1 = 1..255`, the
quantized resistance stays inside `[R_min, R_max]`, and the out-of-range
resistance of tap `N_taps` (equal to `R_series`, below `R_min`) is never
produced for an in-range input. -/
theorem quantize_preserves_hardware_bounds (r : ℚ)
    (h1 : MCP4251.R_min ≤ r) (h2 : r ≤ MCP4251.R_max) :
    (1 ≤ MCP4251.resistance_to_tap r ∧ MCP4251.resistance_to_tap r ≤ 255) ∧
    (MCP4251.R_min ≤ MCP4251.tap_to_resistance (MCP4251.resistance_to_tap r) ∧
      MCP4251.tap_to_resistance (MCP4251.resistance_to_tap r) ≤
        MCP4251.R_max) ∧
    MCP4251.tap_to_resistance (MCP4251.N_taps : ℤ) = MCP4251.R_series ∧
    MCP4251.R_series < MCP4251.R_min := by
  have h1' : (1590:ℚ) ≤ r := by simpa [MCP4251] using h1
  have h2' : r ≤ (101200:ℚ) := by simpa [MCP4251] using h2
  set v : ℚ := (MCP4251.R_pot_full - (r - MCP4251.R_series)) *
      (MCP4251.N_taps : ℚ) / MCP4251.R_pot_full with hv
  have hv_simp : v = (101200 - r) * 256 / 100000 := by
    rw [hv]
    norm_num [MCP4251]
    ring
  have hv_ub : v < 511/2 := by
    rw [hv_simp, div_lt_iff (by norm_num : (0:ℚ) < 100000)]
    linarith
  have hv_lb : 0 ≤ v := by
    rw [hv_simp]
    apply div_nonneg _ (by norm_num)
    nlinarith
  have ht_ub : pyRound v ≤ 255 := by
    have h := pyRound_le v
    have hQ : (pyRound v : ℚ) < 256 := by linarith
    have h' : pyRound v < 256 := by exact_mod_cast hQ
    omega
  have ht_lb : 0 ≤ pyRound v := by
    have h := le_pyRound v
    have hQ : (-1:ℚ) < (pyRound v : ℚ) := by linarith
    have h' : (-1:ℤ) < pyRound v := by exact_mod_cast hQ
    omega
  have htap_def : MCP4251.resistance_to_tap r = clipInt (pyRound v) 1 256 := by
    simp only [WeightParams.resistance_to_tap]
    rw [← hv]
    norm_num [MCP4251]
  have htap_bounds : 1 ≤ MCP4251.resistance_to_tap r ∧
      MCP4251.resistance_to_tap r ≤ 255 := by
    rw [htap_def]
    unfold clipInt
    omega
  refine ⟨htap_bounds, ?_, by norm_num [MCP4251, WeightParams.tap_to_resistance],
    by norm_num [MCP4251]⟩
  obtain ⟨hb1, hb2⟩ := htap_bounds
  generalize hT : MCP4251.resistance_to_tap r = t at hb1 hb2 ⊢
  have hc1 : (1:ℚ) ≤ (t : ℚ) := by exact_mod_cast hb1
  have hc2 : (t : ℚ) ≤ 255 := by exact_mod_cast hb2
  constructor
  · show MCP4251.R_min ≤ MCP4251.tap_to_resistance t
    simp only [WeightParams.tap_to_resistance, MCP4251]
    linarith
  · show MCP4251.tap_to_resistance t ≤ MCP4251.R_max
    simp only [WeightParams.tap_to_resistance, MCP4251]
    linarith

/-- Witness for C9 at `r = 50000`. -/
theorem quantize_preserves_hardware_bounds_witness :
    MCP4251.R_min ≤ 50000 ∧ (50000:ℚ) ≤ MCP4251.R_max ∧
    ((1 ≤ MCP4251.resistance_to_tap 50000 ∧
        MCP4251.resistance_to_tap 50000 ≤ 255) ∧
      (MCP4251.R_min ≤
          MCP4251.tap_to_resistance (MCP4251.resistance_to_tap 50000) ∧
        MCP4251.tap_to_resistance (MCP4251.resistance_to_tap 50000) ≤
          MCP4251.R_max) ∧
      MCP4251.tap_to_resistance (MCP4251.N_taps : ℤ) = MCP4251.R_series ∧
      MCP4251.R_series < MCP4251.R_min) :=
  ⟨by norm_num [MCP4251], by norm_num [MCP4251],
    quantize_preserves_hardware_bounds 50000 (by norm_num [MCP4251])
      (by norm_num [MCP4251])⟩

/-! ## Diode model (diode.py) -/

/-- `np.clip` on reals: `min (max x lo) hi`. -/
noncomputable def clipR (x lo hi : ℝ) : ℝ := min (max x lo) hi

/-- Parameters for a Schottky diode (antiparallel pair activation). -/
structure DiodeParams where
  Is : ℝ
  N : ℝ
  VT : ℝ

/-- Standard BAT42 parameters used throughout the project. -/
noncomputable def BAT42 : DiodeParams :=
  { Is := 1e-7, N := 1.1, VT := 0.02585 }

/-- Net current into a node from an antiparallel diode pair
(diode.py lines 22–35): the `sinh` argument is clamped to `[-500, 500]`
before evaluation. -/
noncomputable def diode_current_into (v_node v_ref : ℝ) (params : DiodeParams) :
    ℝ :=
  let nVt := params.N * params.VT
  let x := clipR ((v_node - v_ref) / nVt) (-500) 500;
  -2 * params.Is * Real.sinh x

/-- C5: for every `v_node`, `v_ref` and diode parameters,
`diode_current_into` returns `-2 * Is * sinh x` where `x` is
`(v_node - v_ref) / (N * VT)` clamped to `[-500, 500]`; the clamp is applied
for every input (the argument actually passed to `sinh` always lies in
`[-500, 500]`), and it is the identity whenever the raw argument is already
in range. -/
theorem diode_current_into_spec (v_node v_ref : ℝ) (params : DiodeParams) :
    diode_current_into v_node v_ref params =
      -2 * params.Is *
        Real.sinh (min (max ((v_node - v_ref) / (params.N * params.VT)) (-500))
          500) ∧
    (-500 : ℝ) ≤ clipR ((v_node - v_ref) / (params.N * params.VT)) (-500) 500 ∧
    clipR ((v_node - v_ref) / (params.N * params.VT)) (-500) 500 ≤ 500 ∧
    (|(v_node - v_ref) / (params.N * params.VT)| ≤ 500 →
      clipR ((v_node - v_ref) / (params.N * params.VT)) (-500) 500 =
        (v_node - v_ref) / (params.N * params.VT)) := by
  refine ⟨by simp only [diode_current_into, clipR], ?_, ?_, ?_⟩
  · simp only [clipR]
    have : (-500 : ℝ) ≤ max ((v_node - v_ref) / (params.N * params.VT)) (-500) :=
      le_max_right _ _
    exact le_min this (by norm_num)
  · exact min_le_right _ _
  · intro h
    rw [abs_le] at h
    simp only [clipR]
    rw [max_eq_left h.1, min_eq_left h.2]

/-! ## Network topology (network.py lines 52–102)

Fixed-node input vectors and free-node voltage vectors are embedded as total
functions `ℕ → ℚ`; index `i` of the Python array corresponds to application
at `i`.  The dictionaries `diode_nodes` and `nudge_signs` are embedded as
partial maps `ℕ → Option ℚ`. -/

/-- Topology and component parameters for a resistive analog network.
Nodes are numbered globally: fixed nodes first (`0..n_fixed-1`), then free
nodes (`n_fixed..n_fixed+n_free-1`). -/
structure Network where
  n_fixed : ℕ
  n_free : ℕ
  connections : List (ℕ × ℕ)
  diode_nodes : ℕ → Option ℚ
  output_pos_idx : ℕ
  output_neg_idx : ℕ
  nudge_signs : ℕ → Option ℚ
  weight_params : WeightParams

def Network.n_weights (net : Network) : ℕ := net.connections.length

/-- Compute output prediction from free-node voltages. -/
def Network.prediction (net : Network) (free_voltages : ℕ → ℚ) : ℚ :=
  free_voltages net.output_pos_idx - free_voltages net.output_neg_idx

/-- Build nudge current vector for the free nodes: entries of `nudge_signs`
get `sign * beta * error`, every other node gets `0`. -/
def Network.nudge_currents (net : Network) (beta error : ℚ) : ℕ → ℚ :=
  fun free_idx =>
    match net.nudge_signs free_idx with
    | some sign => sign * beta * error
    | none => 0

/-- The combined voltage array `list(inputs) + list(state)` of the Python
code, indexed by global node index. -/
def allV (n_fixed : ℕ) (inputs free_voltages : ℕ → ℚ) : ℕ → ℚ :=
  fun i => if i < n_fixed then inputs i else free_voltages (i - n_fixed)

/-! ## EqProp gradient (training.py lines 19–59)

`solve_network` calls `scipy.optimize.root` and cannot be embedded; a
`Solver` value stands for it.  Its arguments mirror
`solve_network(net, inputs, weights, nudge, x0)`. -/

/-- Abstract stand-in for `solve_network`: network, fixed-node inputs,
weights, nudge currents, optional initial guess `x0`; returns the free-node
voltages. -/
def Solver : Type :=
  Network → (ℕ → ℚ) → List ℚ → (ℕ → ℚ) → Option (ℕ → ℚ) → (ℕ → ℚ)

/-- Compute the EqProp gradient for one pattern using a symmetric nudge.
Returns `(gradient, prediction, free_eq)`. -/
def eqprop_gradient (solveN : Solver) (net : Network) (inputs : ℕ → ℚ)
    (weights : List ℚ) (target beta : ℚ) (free_eq0 : Option (ℕ → ℚ)) :
    List ℚ × ℚ × (ℕ → ℚ) :=
  let free_eq :=
    match free_eq0 with
    | some v => v
    | none => solveN net inputs weights (fun _ => 0) none
  let pred := net.prediction free_eq
  let error := target - pred
  let nudge_pos := net.nudge_currents beta error
  let nudge_neg := net.nudge_currents (-beta) error
  let V_pos := solveN net inputs weights nudge_pos (some free_eq)
  let V_neg := solveN net inputs weights nudge_neg (some free_eq)
  let all_pos := allV net.n_fixed inputs V_pos
  let all_neg := allV net.n_fixed inputs V_neg
  let grad := net.connections.map (fun ij =>
    ((all_pos ij.1 - all_pos ij.2) ^ 2 - (all_neg ij.1 - all_neg ij.2) ^ 2) /
      (4 * beta))
  (grad, pred, free_eq)

lemma getD_map_lt {α β : Type} (f : α → β) (l : List α) (k : ℕ) (d : α) (d' : β)
    (hk : k < l.length) : (l.map f).getD k d' = f (l.getD k d) := by
  induction l generalizing k with
  | nil => simp at hk
  | cons a l ih =>
    cases k with
    | zero => rfl
    | succ n => exact ih n (by simpa using hk)

/-- C1: for every network, input vector, weight vector, target and nonzero
beta (and every behaviour of the underlying equilibrium solver),
`eqprop_gradient` builds the nudge vectors as `sign * beta * error` and
`sign * (-beta) * error` (zero at free nodes without a nudge sign, with
`error = target - prediction`), solves the two nudged equilibria `V_pos` and
`V_neg` seeded with the free equilibrium, and returns for each connection
`k = (i, j)` the entry `grad[k] = (dv_pos² - dv_neg²) / (4*beta)` where the
voltage drops are taken from the combined fixed+free voltage array. -/
theorem eqprop_gradient_spec (solveN : Solver) (net : Network) (inputs : ℕ → ℚ)
    (weights : List ℚ) (target beta : ℚ) (free_eq0 : Option (ℕ → ℚ))
    (hbeta : beta ≠ 0) :
    ∀ free_eq pred err V_pos V_neg,
      free_eq = (match free_eq0 with
                 | some v => v
                 | none => solveN net inputs weights (fun _ => 0) none) →
      pred = net.prediction free_eq →
      err = target - pred →
      V_pos = solveN net inputs weights (net.nudge_currents beta err)
        (some free_eq) →
      V_neg = solveN net inputs weights (net.nudge_currents (-beta) err)
        (some free_eq) →
      (∀ idx, net.nudge_currents beta err idx =
        (match net.nudge_signs idx with
         | some sign => sign * beta * err
         | none => 0)) ∧
      (∀ idx, net.nudge_currents (-beta) err idx =
        (match net.nudge_signs idx with
         | some sign => sign * (-beta) * err
         | none => 0)) ∧
      eqprop_gradient solveN net inputs weights target beta free_eq0 =
        (net.connections.map (fun ij =>
          ((allV net.n_fixed inputs V_pos ij.1 -
              allV net.n_fixed inputs V_pos ij.2) ^ 2 -
            (allV net.n_fixed inputs V_neg ij.1 -
              allV net.n_fixed inputs V_neg ij.2) ^ 2) / (4 * beta)),
         pred, free_eq) ∧
      (∀ k, k < net.n_weights →
        (eqprop_gradient solveN net inputs weights target beta free_eq0).1.getD
            k 0 =
          ((allV net.n_fixed inputs V_pos (net.connections.getD k (0, 0)).1 -
              allV net.n_fixed inputs V_pos
                (net.connections.getD k (0, 0)).2) ^ 2 -
            (allV net.n_fixed inputs V_neg (net.connections.getD k (0, 0)).1 -
              allV net.n_fixed inputs V_neg
                (net.connections.getD k (0, 0)).2) ^ 2) / (4 * beta)) := by
  intro free_eq pred err V_pos V_neg h1 h2 h3 h4 h5
  subst h1 h2 h3 h4 h5
  refine ⟨fun idx => rfl, fun idx => rfl, rfl, ?_⟩
  intro k hk
  exact getD_map_lt _ net.connections k (0, 0) 0 hk

/-- Trivial abstract solver used in witnesses: all free voltages zero. -/
def zeroSolver : Solver := fun _ _ _ _ _ => fun _ => 0

/-- Abstract solver used in counterexamples: returns the nudge vector as the
free-node voltages (so nudged solves differ from the free solve). -/
def echoSolver : Solver := fun _ _ _ nudge _ => nudge

/-- Tiny concrete network used in witnesses and counterexamples: one fixed
node, one free node, one connection, a nudge sign of `+1` on free node 0. -/
def testNet : Network :=
  { n_fixed := 1, n_free := 1, connections := [(0, 1)],
    diode_nodes := fun _ => none,
    output_pos_idx := 0, output_neg_idx := 0,
    nudge_signs := fun idx => if idx = 0 then some 1 else none,
    weight_params := MCP4251 }

/-- Witness for C1 at a concrete solver, network and inputs, with every
binder instantiated and every hypothesis discharged. -/
theorem eqprop_gradient_spec_witness :
    (1 : ℚ) ≠ 0 ∧
    ((∀ idx, testNet.nudge_currents 1 3 idx =
        (match testNet.nudge_signs idx with
         | some sign => sign * 1 * 3
         | none => 0)) ∧
      (∀ idx, testNet.nudge_currents (-1) 3 idx =
        (match testNet.nudge_signs idx with
         | some sign => sign * (-1) * 3
         | none => 0)) ∧
      eqprop_gradient zeroSolver testNet (fun _ => 2) [1000] 3 1 none =
        (testNet.connections.map (fun ij =>
          ((allV testNet.n_fixed (fun _ => 2) (fun _ => 0) ij.1 -
              allV testNet.n_fixed (fun _ => 2) (fun _ => 0) ij.2) ^ 2 -
            (allV testNet.n_fixed (fun _ => 2) (fun _ => 0) ij.1 -
              allV testNet.n_fixed (fun _ => 2) (fun _ => 0) ij.2) ^ 2) /
            (4 * 1)),
         0, fun _ => 0) ∧
      (∀ k, k < testNet.n_weights →
        (eqprop_gradient zeroSolver testNet (fun _ => 2) [1000] 3 1
            none).1.getD k 0 =
          ((allV testNet.n_fixed (fun _ => 2) (fun _ => 0)
              (testNet.connections.getD k (0, 0)).1 -
            allV testNet.n_fixed (fun _ => 2) (fun _ => 0)
              (testNet.connections.getD k (0, 0)).2) ^ 2 -
           (allV testNet.n_fixed (fun _ => 2) (fun _ => 0)
              (testNet.connections.getD k (0, 0)).1 -
            allV testNet.n_fixed (fun _ => 2) (fun _ => 0)
              (testNet.connections.getD k (0, 0)).2) ^ 2) / (4 * 1))) :=
  ⟨by norm_num,
    eqprop_gradient_spec zeroSolver testNet (fun _ => 2) [1000] 3 1 none
      (by norm_num) (fun _ => 0) 0 3 (fun _ => 0) (fun _ => 0) rfl
      (by norm_num [testNet, Network.prediction]) (by norm_num) rfl rfl⟩

/-- C8 counterexample: with a non-positive `beta = -1` and a weight vector
containing the non-positive resistance `-5`, the gradient path performs no
validation: `eqprop_gradient` runs the computation through to a normally
computed result (gradient `[-6]`, prediction `0`) instead of rejecting the
inputs before the equilibrium solves. -/
theorem hyperparameter_no_rejection_counterexample :
    (-1 : ℚ) ≤ 0 ∧ (-5 : ℚ) ≤ 0 ∧
    (eqprop_gradient echoSolver testNet (fun _ => 2) [-5] 3 (-1) none).1 =
      [-6] ∧
    (eqprop_gradient echoSolver testNet (fun _ => 2) [-5] 3 (-1) none).2.1 =
      0 := by
  refine ⟨by norm_num, by norm_num, ?_, ?_⟩ <;>
    norm_num [eqprop_gradient, testNet, echoSolver, Network.prediction,
      Network.nudge_currents, allV]

/-- C8 (amended): no validation of hyperparameters is performed anywhere on
the gradient path: for every non-positive `beta` and every weight vector of
non-positive resistances, `eqprop_gradient` uses the values as given and
returns the normally computed result (no error is reported and no input is
rejected before the equilibrium solves). -/
theorem eqprop_gradient_no_validation (solveN : Solver) (net : Network)
    (inputs : ℕ → ℚ) (weights : List ℚ) (target beta : ℚ)
    (hbeta : beta ≤ 0) (hw : ∀ w ∈ weights, w ≤ 0) :
    ∀ free_eq pred err V_pos V_neg,
      free_eq = solveN net inputs weights (fun _ => 0) none →
      pred = net.prediction free_eq →
      err = target - pred →
      V_pos = solveN net inputs weights (net.nudge_currents beta err)
        (some free_eq) →
      V_neg = solveN net inputs weights (net.nudge_currents (-beta) err)
        (some free_eq) →
      eqprop_gradient solveN net inputs weights target beta none =
        (net.connections.map (fun ij =>
          ((allV net.n_fixed inputs V_pos ij.1 -
              allV net.n_fixed inputs V_pos ij.2) ^ 2 -
            (allV net.n_fixed inputs V_neg ij.1 -
              allV net.n_fixed inputs V_neg ij.2) ^ 2) / (4 * beta)),
         pred, free_eq) := by
  intro free_eq pred err V_pos V_neg h1 h2 h3 h4 h5
  subst h1 h2 h3 h4 h5
  rfl

/-- Witness for the amended C8 at a concrete solver, network and
non-positive inputs, with every binder instantiated and every hypothesis
discharged. -/
theorem eqprop_gradient_no_validation_witness :
    (-1 : ℚ) ≤ 0 ∧ (∀ w ∈ [(-5 : ℚ)], w ≤ 0) ∧
    eqprop_gradient echoSolver testNet (fun _ => 2) [-5] 3 (-1) none =
      (testNet.connections.map (fun ij =>
        ((allV testNet.n_fixed (fun _ => 2)
            (testNet.nudge_currents (-1) 3) ij.1 -
          allV testNet.n_fixed (fun _ => 2)
            (testNet.nudge_currents (-1) 3) ij.2) ^ 2 -
         (allV testNet.n_fixed (fun _ => 2)
            (testNet.nudge_currents (-(-1)) 3) ij.1 -
          allV testNet.n_fixed (fun _ => 2)
            (testNet.nudge_currents (-(-1)) 3) ij.2) ^ 2) / (4 * (-1))),
       0, fun _ => 0) :=
  ⟨by norm_num, by simp,
    eqprop_gradient_no_validation echoSolver testNet (fun _ => 2) [-5] 3 (-1)
      (by norm_num) (by simp) (fun _ => 0) 0 3
      (testNet.nudge_currents (-1) 3) (testNet.nudge_currents (-(-1)) 3)
      rfl (by norm_num [testNet, Network.prediction]) (by norm_num) rfl rfl⟩

/-! ## Resistive linear pre-solve (network.py lines 105–133)

The imperative stamping loop accumulates, per connection, a contribution to
the conductance matrix `G` and current vector `I`; since matrix/vector
addition is commutative the loop is embedded as a sum of per-connection
contribution matrices/vectors over `weights.zip connections` (Python `zip`
truncates to the shorter list, as does `List.zip`). -/

/-- Contribution of one connection `(i, j)` with resistance `w` to the
free-node conductance matrix: a free-free connection adds `+g` to both
diagonals and `-g` to both off-diagonals; a free-fixed connection adds `+g`
to the free node's diagonal; a fixed-fixed connection contributes nothing. -/
def connStampG (n_fixed m : ℕ) (w : ℚ) (ij : ℕ × ℕ) :
    Matrix (Fin m) (Fin m) ℚ :=
  fun a b =>
    if n_fixed ≤ ij.1 ∧ n_fixed ≤ ij.2 then
      (if (a : ℕ) = ij.1 - n_fixed ∧ (b : ℕ) = ij.1 - n_fixed then 1 / w else 0)
      + (if (a : ℕ) = ij.2 - n_fixed ∧ (b : ℕ) = ij.2 - n_fixed then 1 / w
         else 0)
      - (if (a : ℕ) = ij.1 - n_fixed ∧ (b : ℕ) = ij.2 - n_fixed then 1 / w
         else 0)
      - (if (a : ℕ) = ij.2 - n_fixed ∧ (b : ℕ) = ij.1 - n_fixed then 1 / w
         else 0)
    else if n_fixed ≤ ij.1 then
      if (a : ℕ) = ij.1 - n_fixed ∧ (b : ℕ) = ij.1 - n_fixed then 1 / w else 0
    else if n_fixed ≤ ij.2 then
      if (a : ℕ) = ij.2 - n_fixed ∧ (b : ℕ) = ij.2 - n_fixed then 1 / w else 0
    else 0

/-- Contribution of one connection `(i, j)` with resistance `w` to the
current vector: a free-fixed connection adds `+g * V_fixed` at the free
node's index. -/
def connStampI (n_fixed m : ℕ) (inputs : ℕ → ℚ) (w : ℚ) (ij : ℕ × ℕ) :
    Fin m → ℚ :=
  fun a =>
    if n_fixed ≤ ij.1 ∧ n_fixed ≤ ij.2 then 0
    else if n_fixed ≤ ij.1 then
      if (a : ℕ) = ij.1 - n_fixed then 1 / w * inputs ij.2 else 0
    else if n_fixed ≤ ij.2 then
      if (a : ℕ) = ij.2 - n_fixed then 1 / w * inputs ij.1 else 0
    else 0

/-- The free-node conductance matrix `G_mat` of `resistive_initial_guess`. -/
def stampG (net : Network) (weights : List ℚ) :
    Matrix (Fin net.n_free) (Fin net.n_free) ℚ :=
  ((weights.zip net.connections).map
    (fun p => connStampG net.n_fixed net.n_free p.1 p.2)).sum

/-- The current vector `I_vec` of `resistive_initial_guess`. -/
def stampI (net : Network) (inputs : ℕ → ℚ) (weights : List ℚ) :
    Fin net.n_free → ℚ :=
  ((weights.zip net.connections).map
    (fun p => connStampI net.n_fixed net.n_free inputs p.1 p.2)).sum

/-- `np.linalg.solve`: the unique solution of `A·x = b` for invertible `A`;
`none` models the `LinAlgError` raised on a singular matrix. -/
def matSolve {m : ℕ} (A : Matrix (Fin m) (Fin m) ℚ) (b : Fin m → ℚ) :
    Option (Fin m → ℚ) :=
  if A.det = 0 then none else some ((A.det⁻¹ • A.adjugate).mulVec b)

/-- Linear pre-solve ignoring diodes — the starting point for Newton. -/
def resistive_initial_guess (net : Network) (inputs : ℕ → ℚ)
    (weights : List ℚ) : Option (Fin net.n_free → ℚ) :=
  matSolve (stampG net weights) (stampI net inputs weights)

lemma matrix_list_sum_apply {m : ℕ} (l : List (Matrix (Fin m) (Fin m) ℚ))
    (a b : Fin m) : l.sum a b = (l.map (fun M => M a b)).sum := by
  induction l with
  | nil => simp [Matrix.zero_apply]
  | cons M l ih => simp [Matrix.add_apply, ih]

lemma vec_list_sum_apply {m : ℕ} (l : List (Fin m → ℚ)) (a : Fin m) :
    l.sum a = (l.map (fun v => v a)).sum := by
  induction l with
  | nil => simp
  | cons v l ih => simp [Pi.add_apply, ih]

/-- C2: for every network with strictly positive weights whose stamped
conductance matrix is non-singular (the spec's well-posedness condition,
which it notes holds whenever every free node has a resistive path to a
fixed node), `resistive_initial_guess` builds `G` and `I` by the stamping
rules and returns the exact solution of `G·x = I`; in particular, for a
single free node connected only to fixed sources through resistors, the
returned voltage equals the conductance-weighted average
`Σ(Vᵢ/Rᵢ) / Σ(1/Rᵢ)`. -/
theorem resistive_initial_guess_exact (net : Network) (inputs : ℕ → ℚ)
    (weights : List ℚ) (hw : ∀ w ∈ weights, 0 < w)
    (hlen : weights.length = net.connections.length)
    (hdet : (stampG net weights).det ≠ 0) :
    (∃ x, resistive_initial_guess net inputs weights = some x ∧
      (stampG net weights).mulVec x = stampI net inputs weights) ∧
    (net.n_free = 1 → net.connections ≠ [] →
      (∀ ij ∈ net.connections,
        (ij.1 < net.n_fixed ∧ ij.2 = net.n_fixed) ∨
        (ij.1 = net.n_fixed ∧ ij.2 < net.n_fixed)) →
      ∀ x, resistive_initial_guess net inputs weights = some x →
        ∀ a : Fin net.n_free,
          x a = ((weights.zip net.connections).map (fun p =>
              (if p.2.1 < net.n_fixed then inputs p.2.1 else inputs p.2.2) /
                p.1)).sum /
            ((weights.zip net.connections).map (fun p => 1 / p.1)).sum) := by
  have hsolve : ∀ x, resistive_initial_guess net inputs weights = some x →
      (stampG net weights).mulVec x = stampI net inputs weights := by
    intro x hx
    unfold resistive_initial_guess matSolve at hx
    rw [if_neg hdet] at hx
    have hx' := Option.some.inj hx
    rw [← hx', Matrix.mulVec_mulVec, Matrix.mul_smul, Matrix.mul_adjugate,
      smul_smul, inv_mul_cancel₀ hdet, one_smul, Matrix.one_mulVec]
  constructor
  · have hrig : resistive_initial_guess net inputs weights =
        some (((stampG net weights).det⁻¹ •
          (stampG net weights).adjugate).mulVec (stampI net inputs weights)) := by
      unfold resistive_initial_guess matSolve
      rw [if_neg hdet]
    exact ⟨_, hrig, hsolve _ hrig⟩
  · intro h1 hne hcon x hx a
    have hGx := hsolve x hx
    have ha0 : (a : ℕ) = 0 := by
      have := a.isLt
      omega
    have hall : ∀ b : Fin net.n_free, b = a := by
      intro b
      have hb := b.isLt
      have ha := a.isLt
      apply Fin.ext
      omega
    have hmv : (stampG net weights).mulVec x a =
        stampG net weights a a * x a := by
      simp only [Matrix.mulVec, Matrix.dotProduct]
      rw [Finset.sum_eq_single a (fun b _ hb => absurd (hall b) hb)
        (fun h => absurd (Finset.mem_univ a) h)]
    have hG : stampG net weights a a =
        ((weights.zip net.connections).map (fun p => 1 / p.1)).sum := by
      unfold stampG
      rw [matrix_list_sum_apply, List.map_map]
      refine congrArg List.sum (List.map_congr_left ?_)
      intro p hp
      have hpc := (List.of_mem_zip hp).2
      rcases hcon p.2 hpc with ⟨hi, hj⟩ | ⟨hi, hj⟩
      · have c1 : ¬(net.n_fixed ≤ p.2.1 ∧ net.n_fixed ≤ p.2.2) := by omega
        have c2 : ¬ net.n_fixed ≤ p.2.1 := by omega
        have c3 : net.n_fixed ≤ p.2.2 := by omega
        have c4 : (a : ℕ) = p.2.2 - net.n_fixed := by omega
        simp [connStampG, c1, c2, c3, c4]
      · have c1 : ¬(net.n_fixed ≤ p.2.1 ∧ net.n_fixed ≤ p.2.2) := by omega
        have c2 : net.n_fixed ≤ p.2.1 := by omega
        have c3 : ¬ net.n_fixed ≤ p.2.2 := by omega
        have c4 : (a : ℕ) = p.2.1 - net.n_fixed := by omega
        simp [connStampG, c1, c2, c3, c4]
    have hI : stampI net inputs weights a =
        ((weights.zip net.connections).map (fun p =>
          (if p.2.1 < net.n_fixed then inputs p.2.1 else inputs p.2.2) /
            p.1)).sum := by
      unfold stampI
      rw [vec_list_sum_apply, List.map_map]
      refine congrArg List.sum (List.map_congr_left ?_)
      intro p hp
      have hpc := (List.of_mem_zip hp).2
      rcases hcon p.2 hpc with ⟨hi, hj⟩ | ⟨hi, hj⟩
      · have c1 : ¬(net.n_fixed ≤ p.2.1 ∧ net.n_fixed ≤ p.2.2) := by omega
        have c2 : ¬ net.n_fixed ≤ p.2.1 := by omega
        have c3 : net.n_fixed ≤ p.2.2 := by omega
        have c4 : (a : ℕ) = p.2.2 - net.n_fixed := by omega
        simp [connStampI, c1, c2, c3, c4, hi]
        try ring
      · have c1 : ¬(net.n_fixed ≤ p.2.1 ∧ net.n_fixed ≤ p.2.2) := by omega
        have c2 : net.n_fixed ≤ p.2.1 := by omega
        have c3 : ¬ net.n_fixed ≤ p.2.2 := by omega
        have c4 : (a : ℕ) = p.2.1 - net.n_fixed := by omega
        have c5 : ¬ p.2.1 < net.n_fixed := by omega
        simp [connStampI, c1, c2, c3, c4, c5]
        try ring
    have hzip_ne : weights.zip net.connections ≠ [] := by
      intro hz
      apply hne
      have hlz := congrArg List.length hz
      rw [List.length_zip, hlen, min_self] at hlz
      exact List.length_eq_zero.mp hlz
    have hden : 0 <
        ((weights.zip net.connections).map (fun p => 1 / p.1)).sum := by
      apply List.sum_pos
      · intro q hq
        obtain ⟨p, hp, rfl⟩ := List.mem_map.mp hq
        have hpw : 0 < p.1 := hw p.1 (List.of_mem_zip hp).1
        positivity
      · intro hmapnil
        exact hzip_ne (List.map_eq_nil.mp hmapnil)
    have h0 := congrFun hGx a
    rw [hmv, hG, hI] at h0
    rw [eq_div_iff hden.ne']
    linarith [h0]

/-- Voltage-divider network used in the C2 witness: two fixed source nodes
(0 and 1) each connected through a resistor to the single free node 2. -/
def divNet : Network :=
  { n_fixed := 2, n_free := 1, connections := [(0, 2), (1, 2)],
    diode_nodes := fun _ => none, output_pos_idx := 0, output_neg_idx := 0,
    nudge_signs := fun _ => none, weight_params := MCP4251 }

/-- Witness for C2 on the concrete two-source voltage divider with unit
resistances and source voltages 2 and 4. -/
theorem resistive_initial_guess_exact_witness :
    (∀ w ∈ [(1:ℚ), 1], 0 < w) ∧
    [(1:ℚ), 1].length = divNet.connections.length ∧
    (stampG divNet [1, 1]).det ≠ 0 ∧
    ((∃ x, resistive_initial_guess divNet (fun i => if i = 0 then 2 else 4)
          [1, 1] = some x ∧
      (stampG divNet [1, 1]).mulVec x =
        stampI divNet (fun i => if i = 0 then 2 else 4) [1, 1]) ∧
    (divNet.n_free = 1 → divNet.connections ≠ [] →
      (∀ ij ∈ divNet.connections,
        (ij.1 < divNet.n_fixed ∧ ij.2 = divNet.n_fixed) ∨
        (ij.1 = divNet.n_fixed ∧ ij.2 < divNet.n_fixed)) →
      ∀ x, resistive_initial_guess divNet (fun i => if i = 0 then 2 else 4)
          [1, 1] = some x →
        ∀ a : Fin divNet.n_free,
          x a = (([(1:ℚ), 1].zip divNet.connections).map (fun p =>
              (if p.2.1 < divNet.n_fixed then
                (fun i => if i = 0 then (2:ℚ) else 4) p.2.1
               else (fun i => if i = 0 then (2:ℚ) else 4) p.2.2) /
                p.1)).sum /
            (([(1:ℚ), 1].zip divNet.connections).map (fun p => 1 / p.1)).sum)) := by
  have hw : ∀ w ∈ [(1:ℚ), 1], 0 < w := by norm_num
  have hlen : [(1:ℚ), 1].length = divNet.connections.length := rfl
  have hdet : (stampG divNet [1, 1]).det ≠ 0 := by
    have h : (stampG divNet [1, 1]).det =
        stampG divNet [1, 1] ⟨0, Nat.one_pos⟩ ⟨0, Nat.one_pos⟩ :=
      Matrix.det_fin_one _
    rw [h]
    norm_num [stampG, connStampG, divNet, Matrix.add_apply, Matrix.zero_apply]
  exact ⟨hw, hlen, hdet,
    resistive_initial_guess_exact divNet (fun i => if i = 0 then 2 else 4)
      [1, 1] hw hlen hdet⟩

/-! ## Training loop (training.py lines 62–159)

The loop is embedded with explicit state passing: `trainGo fuel epoch w b s`
runs the epoch body for 0-based epoch index `epoch` with `fuel` further
epochs allowed after it.  `train` with `n_epochs = 0` returns `none`: the
Python function would read the never-assigned `epoch_loss` at its final
`return` (an `UnboundLocalError`).  The seeded random initial conductances
are taken as an explicit argument `G_init`.  Logging is side-effect-only and
is omitted. -/

/-- Result of a training run. -/
structure TrainResult where
  weights : List ℚ
  final_loss : ℚ
  converged : Bool
  epochs_run : ℕ

/-- One epoch's pattern loop: accumulate the summed gradient and the summed
loss `0.5 * (target - prediction)²` over the dataset. -/
def epochGradLoss (solveN : Solver) (net : Network)
    (dataset : List ((ℕ → ℚ) × ℚ)) (weights : List ℚ) (beta : ℚ) :
    List ℚ × ℚ :=
  dataset.foldl (fun acc pat =>
    let r := eqprop_gradient solveN net pat.1 weights pat.2 beta none
    (List.zipWith (fun a g => a + g) acc.1 r.1,
      acc.2 + 1/2 * (pat.2 - r.2.1) ^ 2))
    (List.replicate net.n_weights 0, 0)

/-- Batch weight update in conductance space:
`G ← clip(G - lr*grad, G_min, G_max)`, then back to resistance. -/
def updateWeights (wp : WeightParams) (lr : ℚ) (weights grad : List ℚ) :
    List ℚ :=
  (weights.zip grad).map (fun p =>
    1 / clipQ (1 / p.1 - lr * p.2) wp.G_min wp.G_max)

/-- State after one epoch body: epoch loss, updated weights, and the
plateau-tracking state (`best_loss`, `stall_count`).  `best = none` models
the initial `best_loss = inf`. -/
structure EpochState where
  loss : ℚ
  weights : List ℚ
  best : Option ℚ
  stall : ℕ

/-- One epoch body of `train`: gradient/loss accumulation, batch update,
plateau tracking. -/
def epochStep (solveN : Solver) (net : Network) (dataset : List ((ℕ → ℚ) × ℚ))
    (lr beta min_delta : ℚ) (weights : List ℚ) (best : Option ℚ) (stall : ℕ) :
    EpochState :=
  let gl := epochGradLoss solveN net dataset weights beta
  let improved : Bool :=
    match best with
    | none => true
    | some b => decide (gl.2 < b - min_delta)
  { loss := gl.2,
    weights := updateWeights net.weight_params lr weights gl.1,
    best := if improved then some gl.2 else best,
    stall := if improved then 0 else stall + 1 }

/-- The epoch loop of `train`.  `fuel` is the number of epochs remaining
after the current one; `epoch` is the 0-based index of the current epoch.
Early returns mirror training.py lines 142–157; when `fuel` runs out the
loop falls through to the final `return` with `epochs_run = epoch + 1 =
n_epochs`. -/
def trainGo (solveN : Solver) (net : Network) (dataset : List ((ℕ → ℚ) × ℚ))
    (lr beta min_delta : ℚ) (patience : ℕ) :
    ℕ → ℕ → List ℚ → Option ℚ → ℕ → TrainResult
  | 0, epoch, weights, best, stall =>
    let u := epochStep solveN net dataset lr beta min_delta weights best stall
    if u.loss < 1/200 then ⟨u.weights, u.loss, true, epoch⟩
    else if patience ≤ u.stall then ⟨u.weights, u.loss, false, epoch⟩
    else ⟨u.weights, u.loss, false, epoch + 1⟩
  | f + 1, epoch, weights, best, stall =>
    let u := epochStep solveN net dataset lr beta min_delta weights best stall
    if u.loss < 1/200 then ⟨u.weights, u.loss, true, epoch⟩
    else if patience ≤ u.stall then ⟨u.weights, u.loss, false, epoch⟩
    else trainGo solveN net dataset lr beta min_delta patience f (epoch + 1)
      u.weights u.best u.stall

/-- Train the network via equilibrium propagation (training.py lines
62–159). -/
def train (solveN : Solver) (net : Network) (dataset : List ((ℕ → ℚ) × ℚ))
    (n_epochs : ℕ) (lr beta : ℚ) (G_init : List ℚ) (patience : ℕ)
    (min_delta : ℚ) : Option TrainResult :=
  let weights := G_init.map (fun g => 1 / g)
  match n_epochs with
  | 0 => none
  | f + 1 =>
    some (trainGo solveN net dataset lr beta min_delta patience f 0 weights
      none 0)

/-- Companion of `trainGo` that counts executed epoch bodies and records
whether the loop returned early (converged or plateaued). -/
def trainGoAux (solveN : Solver) (net : Network)
    (dataset : List ((ℕ → ℚ) × ℚ)) (lr beta min_delta : ℚ) (patience : ℕ) :
    ℕ → List ℚ → Option ℚ → ℕ → ℕ × Bool
  | 0, weights, best, stall =>
    let u := epochStep solveN net dataset lr beta min_delta weights best stall
    if u.loss < 1/200 then (1, true)
    else if patience ≤ u.stall then (1, true)
    else (1, false)
  | f + 1, weights, best, stall =>
    let u := epochStep solveN net dataset lr beta min_delta weights best stall
    if u.loss < 1/200 then (1, true)
    else if patience ≤ u.stall then (1, true)
    else
      let r := trainGoAux solveN net dataset lr beta min_delta patience f
        u.weights u.best u.stall
      (r.1 + 1, r.2)

/-! ### C6: conductance bounds are an invariant of training -/

/-- All weights have conductance inside `[G_min, G_max]` (equivalently, all
resistances lie inside `[R_min, R_max]`). -/
def conductancesInRange (wp : WeightParams) (weights : List ℚ) : Prop :=
  ∀ w ∈ weights, wp.G_min ≤ 1 / w ∧ 1 / w ≤ wp.G_max

lemma clipQ_mem {x lo hi : ℚ} (h : lo ≤ hi) :
    lo ≤ clipQ x lo hi ∧ clipQ x lo hi ≤ hi := by
  unfold clipQ
  exact ⟨le_min (le_max_right x lo) h, min_le_right _ _⟩

lemma updateWeights_inRange (wp : WeightParams)
    (hle : wp.G_min ≤ wp.G_max) (hpos : 0 < wp.G_min) (lr : ℚ)
    (weights grad : List ℚ) :
    conductancesInRange wp (updateWeights wp lr weights grad) := by
  intro w hw
  obtain ⟨p, hp, rfl⟩ := List.mem_map.mp hw
  rw [one_div_one_div]
  exact clipQ_mem hle

lemma trainGo_weights_inRange (solveN : Solver) (net : Network)
    (dataset : List ((ℕ → ℚ) × ℚ)) (lr beta min_delta : ℚ) (patience : ℕ)
    (hle : net.weight_params.G_min ≤ net.weight_params.G_max)
    (hpos : 0 < net.weight_params.G_min) :
    ∀ fuel epoch weights best stall,
      conductancesInRange net.weight_params
        (trainGo solveN net dataset lr beta min_delta patience fuel epoch
          weights best stall).weights := by
  intro fuel
  induction fuel with
  | zero =>
    intro epoch weights best stall
    simp only [trainGo]
    split_ifs <;>
      exact updateWeights_inRange net.weight_params hle hpos lr weights _
  | succ f ih =>
    intro epoch weights best stall
    simp only [trainGo]
    split_ifs
    · exact updateWeights_inRange net.weight_params hle hpos lr weights _
    · exact updateWeights_inRange net.weight_params hle hpos lr weights _
    · exact ih _ _ _ _

/-- C6: throughout every run of `train`, every weight's conductance lies in
`[G_min, G_max]`: it holds for the initial weights built from conductances
sampled in `[G_min, G_max]`, it holds after every batch update
`G ← clip(G - lr*grad_sum, G_min, G_max)` (for arbitrary incoming weights
and gradients), and hence it holds for the weights returned by `train`. -/
theorem train_weights_in_bounds (solveN : Solver) (net : Network)
    (dataset : List ((ℕ → ℚ) × ℚ)) (n_epochs : ℕ) (lr beta : ℚ)
    (G_init : List ℚ) (patience : ℕ) (min_delta : ℚ)
    (weights grad : List ℚ)
    (hle : net.weight_params.G_min ≤ net.weight_params.G_max)
    (hpos : 0 < net.weight_params.G_min)
    (hinit : ∀ g ∈ G_init, net.weight_params.G_min ≤ g ∧
      g ≤ net.weight_params.G_max) :
    conductancesInRange net.weight_params (G_init.map (fun g => 1 / g)) ∧
    conductancesInRange net.weight_params
      (updateWeights net.weight_params lr weights grad) ∧
    (train solveN net dataset n_epochs lr beta G_init patience
        min_delta).elim True
      (fun r => conductancesInRange net.weight_params r.weights) := by
  refine ⟨?_, updateWeights_inRange net.weight_params hle hpos lr weights grad,
    ?_⟩
  · intro w hw
    obtain ⟨g, hg, rfl⟩ := List.mem_map.mp hw
    rw [one_div_one_div]
    exact hinit g hg
  · unfold train
    match n_epochs with
    | 0 => exact trivial
    | f + 1 =>
      exact trainGo_weights_inRange solveN net dataset lr beta min_delta
        patience hle hpos f 0 _ none 0

/-- Witness for C6 at concrete training inputs. -/
theorem train_weights_in_bounds_witness :
    (testNet.weight_params.G_min ≤ testNet.weight_params.G_max ∧
      0 < testNet.weight_params.G_min ∧
      (∀ g ∈ [(1:ℚ)/2000], testNet.weight_params.G_min ≤ g ∧
        g ≤ testNet.weight_params.G_max)) ∧
    (conductancesInRange testNet.weight_params
        ([(1:ℚ)/2000].map (fun g => 1 / g)) ∧
      conductancesInRange testNet.weight_params
        (updateWeights testNet.weight_params 0 [2000] [0]) ∧
      (train zeroSolver testNet [] 1 0 1 [1/2000] 1 0).elim True
        (fun r => conductancesInRange testNet.weight_params r.weights)) := by
  have h1 : testNet.weight_params.G_min ≤ testNet.weight_params.G_max := by
    norm_num [testNet, MCP4251, WeightParams.G_min, WeightParams.G_max]
  have h2 : (0:ℚ) < testNet.weight_params.G_min := by
    norm_num [testNet, MCP4251, WeightParams.G_min]
  have h3 : ∀ g ∈ [(1:ℚ)/2000], testNet.weight_params.G_min ≤ g ∧
      g ≤ testNet.weight_params.G_max := by
    norm_num [testNet, MCP4251, WeightParams.G_min, WeightParams.G_max]
  exact ⟨⟨h1, h2, h3⟩,
    train_weights_in_bounds zeroSolver testNet [] 1 0 1 [1/2000] 1 0
      [2000] [0] h1 h2 h3⟩

/-! ### C10: the returned loss is evaluated at the pre-update weights -/

lemma trainGo_result_shape (solveN : Solver) (net : Network)
    (dataset : List ((ℕ → ℚ) × ℚ)) (lr beta min_delta : ℚ) (patience : ℕ) :
    ∀ fuel epoch weights best stall,
      ∃ w_pre,
        (trainGo solveN net dataset lr beta min_delta patience fuel epoch
          weights best stall).weights =
          updateWeights net.weight_params lr w_pre
            (epochGradLoss solveN net dataset w_pre beta).1 ∧
        (trainGo solveN net dataset lr beta min_delta patience fuel epoch
          weights best stall).final_loss =
          (epochGradLoss solveN net dataset w_pre beta).2 := by
  intro fuel
  induction fuel with
  | zero =>
    intro epoch weights best stall
    simp only [trainGo, epochStep]
    split_ifs <;> exact ⟨weights, rfl, rfl⟩
  | succ f ih =>
    intro epoch weights best stall
    simp only [trainGo, epochStep]
    split_ifs <;> first
      | exact ⟨weights, rfl, rfl⟩
      | exact ih _ _ _ _

/-- C10: for every training run that terminates, the returned `final_loss`
is the last epoch's accumulated loss evaluated at the weights as they were
before that epoch's batch update, while the returned weights vector includes
that final update (so the loss reported next to the returned weights — the
same loss the convergence and plateau tests examined — was computed at the
pre-update weights). -/
theorem train_final_loss_pre_update (solveN : Solver) (net : Network)
    (dataset : List ((ℕ → ℚ) × ℚ)) (n_epochs : ℕ) (lr beta : ℚ)
    (G_init : List ℚ) (patience : ℕ) (min_delta : ℚ) :
    (train solveN net dataset n_epochs lr beta G_init patience
        min_delta).elim True
      (fun r => ∃ w_pre,
        r.weights = updateWeights net.weight_params lr w_pre
          (epochGradLoss solveN net dataset w_pre beta).1 ∧
        r.final_loss = (epochGradLoss solveN net dataset w_pre beta).2) := by
  unfold train
  match n_epochs with
  | 0 => exact trivial
  | f + 1 =>
    exact trainGo_result_shape solveN net dataset lr beta min_delta patience
      f 0 _ none 0

/-! ### C7: what the `epochs_run` field reports -/

lemma trainGo_aux_link (solveN : Solver) (net : Network)
    (dataset : List ((ℕ → ℚ) × ℚ)) (lr beta min_delta : ℚ) (patience : ℕ) :
    ∀ fuel epoch weights best stall,
      ((trainGoAux solveN net dataset lr beta min_delta patience fuel weights
          best stall).2 = true →
        (trainGo solveN net dataset lr beta min_delta patience fuel epoch
            weights best stall).epochs_run + 1 =
          epoch + (trainGoAux solveN net dataset lr beta min_delta patience
            fuel weights best stall).1) ∧
      ((trainGoAux solveN net dataset lr beta min_delta patience fuel weights
          best stall).2 = false →
        (trainGo solveN net dataset lr beta min_delta patience fuel epoch
            weights best stall).epochs_run =
          epoch + (trainGoAux solveN net dataset lr beta min_delta patience
            fuel weights best stall).1 ∧
        (trainGoAux solveN net dataset lr beta min_delta patience fuel weights
          best stall).1 = fuel + 1) := by
  intro fuel
  induction fuel with
  | zero =>
    intro epoch weights best stall
    simp only [trainGo, trainGoAux]
    split_ifs <;> constructor <;> intro h <;> simp_all <;> omega
  | succ f ih =>
    intro epoch weights best stall
    simp only [trainGo, trainGoAux]
    split_ifs
    · constructor <;> intro h <;> simp_all
    · constructor <;> intro h <;> simp_all
    · constructor
      · intro h
        simp only at h ⊢
        have := (ih (epoch + 1) _ _ _).1 h
        omega
      · intro h
        simp only at h ⊢
        obtain ⟨hb, hc⟩ := (ih (epoch + 1) _ _ _).2 h
        omega

/-- C7 (amended): when a run of `train` terminates, the `epochs_run` field
equals `n_epochs` when no early stop triggers (and then exactly `n_epochs`
epochs were executed), but when training stops early (convergence or
plateau) it equals the 0-based index of the stopping epoch, i.e. the number
of epochs actually executed **minus one** (the executed count is given by
the companion `trainGoAux`). -/
theorem train_epochs_run_semantics (solveN : Solver) (net : Network)
    (dataset : List ((ℕ → ℚ) × ℚ)) (n_epochs : ℕ) (lr beta : ℚ)
    (G_init : List ℚ) (patience : ℕ) (min_delta : ℚ) :
    (train solveN net dataset n_epochs lr beta G_init patience
        min_delta).elim True
      (fun r =>
        ((trainGoAux solveN net dataset lr beta min_delta patience
            (n_epochs - 1) (G_init.map (fun g => 1 / g)) none 0).2 = true →
          r.epochs_run + 1 =
            (trainGoAux solveN net dataset lr beta min_delta patience
              (n_epochs - 1) (G_init.map (fun g => 1 / g)) none 0).1) ∧
        ((trainGoAux solveN net dataset lr beta min_delta patience
            (n_epochs - 1) (G_init.map (fun g => 1 / g)) none 0).2 = false →
          r.epochs_run = n_epochs ∧
          (trainGoAux solveN net dataset lr beta min_delta patience
            (n_epochs - 1) (G_init.map (fun g => 1 / g)) none 0).1 =
            n_epochs)) := by
  unfold train
  match n_epochs with
  | 0 => exact trivial
  | f + 1 =>
    have h := trainGo_aux_link solveN net dataset lr beta min_delta patience
      f 0 (G_init.map (fun g => 1 / g)) none 0
    simp only [Option.elim, Nat.add_sub_cancel]
    constructor
    · intro h2
      have := h.1 h2
      omega
    · intro h2
      obtain ⟨hb, hc⟩ := h.2 h2
      omega

/-- C7 counterexample: with an empty dataset the epoch loss is `0 < 0.005`,
so training converges during the very first epoch (one epoch executed, as
`trainGoAux` reports), yet the returned `epochs_run` is the 0-based loop
index `0`, not the count `1` of epochs actually executed. -/
theorem train_epochs_run_counterexample :
    (train zeroSolver testNet [] 3 0 1 [1/2000] 1 0).map
      TrainResult.epochs_run = some 0 ∧
    (train zeroSolver testNet [] 3 0 1 [1/2000] 1 0).map
      TrainResult.converged = some true ∧
    (trainGoAux zeroSolver testNet [] 0 1 0 1 2
      ([(1:ℚ)/2000].map (fun g => 1 / g)) none 0) = (1, true) := by
  have hloss : ∀ w : List ℚ,
      epochGradLoss zeroSolver testNet [] w 1 =
        (List.replicate testNet.n_weights 0, 0) := fun w => rfl
  refine ⟨?_, ?_, ?_⟩ <;>
    norm_num [train, trainGo, trainGoAux, epochStep, hloss]
